import Mathlib

/- Shallow embedding of the bin2c / bin2h converters (DancingDice/bin2c).
   Text is modelled as List Char (the contents of a C string, without its
   terminating null); machine counters as Nat; the platform constant
   LONG_MAX as an explicit parameter M; the stdio streams as a log of
   operations driven by a per-call success oracle (orc n decides whether
   the n-th stdio call on the output succeeds).  Heap allocation is
   assumed to succeed. -/

namespace Bin2c

/- Uppercase hexadecimal digit, as printf %X produces. -/
def hexDig (n : Nat) : Char := if n < 10 then Char.ofNat (48 + n) else Char.ofNat (55 + n)

/- Hexadecimal rendering of a byte by printf "%hhX": uppercase, no zero padding. -/
def hexByte (n : Nat) : List Char := if n < 16 then [hexDig n] else [hexDig (n / 16), hexDig (n % 16)]

/- The text of one array element: the "0x%hhXu" format applied to an unsigned char
   (src/bin2c/main.c line 753; bin2h uses "0x%hXu" on the same byte value,
   src/bin2h/main.c line 397, producing identical text). -/
def litPlain (b : Nat) : List Char := '0' :: 'x' :: (hexByte (b % 256) ++ ['u'])

/- The text written for one byte: the first element is written with "0x%hhXu",
   every later one with ", 0x%hhXu" (main.c lines 753 and 800). -/
def litStr (first : Bool) (b : Nat) : List Char := (if first then [] else [',', ' ']) ++ litPlain b

inductive FOp where
  | openF : List Char → FOp
  | writeF : List Char → FOp
  | flushF : FOp
  | closeF : FOp
deriving DecidableEq

structure World where
  attempts : Nat
  log : List FOp
deriving DecidableEq

/- One stdio call on the output stream: the oracle decides whether this
   (attempts-th) call succeeds; only successful calls are logged. -/
def emit (orc : Nat → Bool) (op : FOp) (w : World) : World × Bool :=
  if orc w.attempts then ({ attempts := w.attempts + 1, log := w.log ++ [op] }, true)
  else ({ attempts := w.attempts + 1, log := w.log }, false)

def opText : FOp → List Char
  | FOp.writeF s => s
  | _ => []

/- Concatenation of all text successfully written. -/
def textOf (log : List FOp) : List Char := (log.map opText).flatten

def isWrite : FOp → Bool
  | FOp.writeF _ => true
  | _ => false

def countWrites (log : List FOp) : Nat := (log.filter isWrite).length

/- The oracle under which every stdio call succeeds. -/
def okW : Nat → Bool := fun _ => true

/- State of the streaming loop of main_runbin2c (main.c lines 744-824):
   the success accumulator, whether the next element is the first (the
   "format" variable still holding the separator-free format), the running
   element count ("long length"), and the output stream. -/
structure EncState where
  success : Bool
  first : Bool
  length : Nat
  w : World
deriving DecidableEq

/- One iteration of the inner byte loop (main.c lines 783-808):
   fprintf the element, fold the write result and the LONG_MAX guard into
   "success", then increment the count.  The loop body runs for every byte
   of the chunk regardless of earlier failures. -/
def encodeByte (orc : Nat → Bool) (M : Nat) (b : Nat) (st : EncState) : EncState :=
  let r := emit orc (FOp.writeF (litStr st.first b)) st.w
  { success := st.success && r.2 && decide (st.length < M)
  , first := false
  , length := st.length + 1
  , w := r.1 }

/- The inner while (count > 0) loop over one chunk returned by fread. -/
def encodeChunk (orc : Nat → Bool) (M : Nat) : List Nat → EncState → EncState
  | [], st => st
  | b :: rest, st => encodeChunk orc M rest (encodeByte orc M b st)

/- The outer while (success) loop over the successive fread results
   (main.c lines 761-817): a chunk is only read and processed while the
   success accumulator still holds. -/
def encodeChunks (orc : Nat → Bool) (M : Nat) : List (List Nat) → EncState → EncState
  | [], st => st
  | c :: rest, st =>
    if st.success = true then encodeChunks orc M rest (encodeChunk orc M c st) else st

/- The whole streaming section: after the delivered chunks, a read error
   reported by ferror (rather than eof) clears success (main.c lines 769-775). -/
def encodeStream (orc : Nat → Bool) (M : Nat) (chunks : List (List Nat)) (readErr : Bool)
    (st : EncState) : EncState :=
  let r := encodeChunks orc M chunks st
  { r with success := r.success && !readErr }

/- Initial state of one encode run: buffer allocation succeeded
   ("success = buffer != NULL", main.c line 759), count zero, first format. -/
def encInit : EncState := { success := true, first := true, length := 0, w := { attempts := 0, log := [] } }

/- Specification-side payload shape, from the spec's words: the renderings
   joined by the two-character separator ", ", no separator before the
   first element and none after the last. -/
def joinedPayload : List (List Char) → List Char
  | [] => []
  | [s] => s
  | s :: t :: rest => s ++ [',', ' '] ++ joinedPayload (t :: rest)

/- Specification-side per-byte rendering as the claim words it: exactly two
   zero-padded hexadecimal digits. -/
def litPadded (b : Nat) : List Char :=
  '0' :: 'x' :: [hexDig (b % 256 / 16), hexDig (b % 256 % 16)] ++ ['u']

/- The list of element texts the byte loop writes, threading the first-element flag. -/
def renderLits : Bool → List Nat → List (List Char)
  | _, [] => []
  | f, b :: rest => litStr f b :: renderLits false rest

def renderOps (f : Bool) (bytes : List Nat) : List FOp := (renderLits f bytes).map FOp.writeF

/- ---------- bin2h's streaming loop (src/bin2h/main.c lines 391-453) ----------
   Identical to bin2c's loop except that it keeps no element count and
   therefore has no LONG_MAX guard. -/

structure EncStateH where
  success : Bool
  first : Bool
  w : World
deriving DecidableEq

def encodeByteH (orc : Nat → Bool) (b : Nat) (st : EncStateH) : EncStateH :=
  let r := emit orc (FOp.writeF (litStr st.first b)) st.w
  { success := st.success && r.2, first := false, w := r.1 }

def encodeChunkH (orc : Nat → Bool) : List Nat → EncStateH → EncStateH
  | [], st => st
  | b :: rest, st => encodeChunkH orc rest (encodeByteH orc b st)

def encodeChunksH (orc : Nat → Bool) : List (List Nat) → EncStateH → EncStateH
  | [], st => st
  | c :: rest, st =>
    if st.success = true then encodeChunksH orc rest (encodeChunkH orc c st) else st

def encodeStreamH (orc : Nat → Bool) (chunks : List (List Nat)) (readErr : Bool)
    (st : EncStateH) : EncStateH :=
  let r := encodeChunksH orc chunks st
  { r with success := r.success && !readErr }

def encInitH : EncStateH := { success := true, first := true, w := { attempts := 0, log := [] } }

/- ---------- size-macro rendering (src/bin2c/main.c lines 951-990) ----------
   The C99 build: the count (a nonnegative long) is compared against
   SCHAR_MAX, SHRT_MAX and INT_MAX in turn and printed with "%hhd", "%hd",
   "%d" or "%ldl" after the corresponding cast.  The platform is the usual
   one with 8-bit signed char, 16-bit short, 32-bit int. -/

/- Value-level effect of casting a nonnegative long to a narrower signed type
   (two's-complement wrap into the signed range). -/
def schar (n : Nat) : Int := (((n + 128) % 256 : Nat) : Int) - 128

def sshort (n : Nat) : Int := (((n + 32768) % 65536 : Nat) : Int) - 32768

def sintc (n : Nat) : Int := (((n + 2147483648) % 4294967296 : Nat) : Int) - 2147483648

/- Decimal rendering of a signed value, as printf %d produces. -/
def decRepr : Int → List Char
  | Int.ofNat n => Nat.toDigits 10 n
  | Int.negSucc n => '-' :: Nat.toDigits 10 (n + 1)

/- The text written for the size macro's value: two leading spaces, then the
   decimal, with an 'l' suffix only in the widest branch (lines 955-982). -/
def renderLength (len : Nat) : List Char :=
  if len ≤ 127 then ' ' :: ' ' :: decRepr (schar len)
  else if len ≤ 32767 then ' ' :: ' ' :: decRepr (sshort len)
  else if len ≤ 2147483647 then ' ' :: ' ' :: decRepr (sintc len)
  else ' ' :: ' ' :: (decRepr (Int.ofNat len) ++ ['l'])

/- The numeric width (in bits) the cascade selects for a given count. -/
def chosenTier (len : Nat) : Nat :=
  if len ≤ 127 then 8 else if len ≤ 32767 then 16 else if len ≤ 2147483647 then 32 else 64

/- Specification-side width selection, from the spec's words: the tiers
   8-bit signed, 16-bit signed, 32-bit signed and "wider", and the choice is
   the smallest tier whose range contains the count. -/
def tierTable : List (Nat × Nat) := [(8, 127), (16, 32767), (32, 2147483647)]

def smallestContainingTier (len : Nat) : Nat :=
  ((tierTable.filter (fun p => decide (len ≤ p.2))).map (fun p => p.1)).headD 64

/- ---------- macro identifier construction ----------
   main_runbin2c_constructmacro and its helper
   main_runbin2c_constructmacro_upperizemacro (src/bin2c/main.c lines
   356-374 and 405-500).  The Lean names drop the trailing C names.
   "length" is an unsigned short counting down from USHRT_MAX; subtracting a
   fragment length wraps modulo 65536 exactly as the C subtraction does. -/

def usSub (a b : Nat) : Nat := (a + 65536 - b % 65536) % 65536

/- One "measure a fragment" step: success requires the fragment to be
   strictly shorter than the remaining budget (lines 431-447). -/
def macStep (s : Bool × Nat) (part : List Char) : Bool × Nat :=
  (s.1 && decide (part.length < s.2), usSub s.2 part.length)

/- The upper-casing copy loop (lines 363-371); toupper in the C locale is
   Char.toUpper on ASCII. -/
def macroUpperize : List Char → List Char → List Char
  | [], acc => acc
  | c :: rest, acc => macroUpperize rest (acc ++ [c.toUpper])

/- main_runbin2c_constructmacro: measure the up-to-three parts, require at
   least one spare character for the terminator, then concatenate the
   upper-cased parts (allocation is assumed to succeed). -/
def macroConstruct (pre : Option (List Char)) (core : List Char) (suf : Option (List Char)) :
    Option (List Char) :=
  let s1 := match pre with
    | some p => macStep (true, 65535) p
    | none => (true, 65535)
  let s2 := macStep s1 core
  let s3 := match suf with
    | some q => macStep s2 q
    | none => s2
  if (s3.1 && decide (1 ≤ s3.2)) = true then
    let m1 := match pre with
      | some p => macroUpperize p []
      | none => []
    let m2 := macroUpperize core m1
    let m3 := match suf with
      | some q => macroUpperize q m2
      | none => m2
    some m3
  else none

/- ---------- path scanning ----------
   All three scanners walk the string once with an unsigned short counting
   down from USHRT_MAX = 65535, remembering countdown values when the
   interesting characters are seen.  MAIN_PATHDELIMITER is modelled as '/'
   (the non-Windows build).  The list holds the characters before the
   terminating null; the element "after the end of the list" is the null. -/

/- main_findname's scan (src/bin2c/main.c lines 287-327): returns the final
   "delimiter" value, i.e. the index one past the last '/' seen (0 if none);
   the function then returns the pointer rewound to that index. -/
def findnameScan : List Char → Nat → Nat → Nat
  | _, 0, delim => delim
  | [], _ + 1, delim => delim
  | c :: rest, len + 1, delim =>
    if c = '/' then findnameScan rest len (65535 - len)
    else if c = '\x00' then delim
    else findnameScan rest len delim

def main_findname (path : List Char) : List Char := path.drop (findnameScan path 65535 0)

/- main_shortenname's scan (lines 1042-1106): tracks the countdown value at
   the last '.' ("terminus", reset to 0 by a later '/') and the index one
   past the last '/' ("delimiter"). -/
def shortenScan : List Char → Nat → Nat → Nat → Nat × Nat
  | _, 0, t, d => (t, d)
  | [], _ + 1, t, d => (t, d)
  | c :: rest, len + 1, t, d =>
    if c = '.' then shortenScan rest len (len + 1) d
    else if c = '/' then shortenScan rest len 0 (65535 - len)
    else if c = '\x00' then (t, d)
    else shortenScan rest len t d

/- main_shortenname: the filename substring, truncated at the last '.' by
   overwriting it with a null (modelled by taking the prefix). -/
def main_shortenname (path : List Char) : List Char :=
  let r := shortenScan path 65535 0 0
  let fname := path.drop r.2
  if 0 < r.1 then fname.take ((65535 - r.1) - r.2) else fname

/- main_constructoutpath's scan (lines 1137-1240): "offset" holds the
   countdown value at the last '.', reset to the sentinel 65535 by a later
   '/'.  Returns (remaining countdown, offset, unscanned rest). -/
def outpathScan : List Char → Nat → Nat → Nat × Nat × List Char
  | rest, 0, offset => (0, offset, rest)
  | [], len + 1, offset => (len + 1, offset, [])
  | c :: rest, len + 1, offset =>
    if c = '.' then outpathScan rest len (len + 1)
    else if c = '/' then outpathScan rest len 65535
    else if c = '\x00' then (len + 1, offset, c :: rest)
    else outpathScan rest len offset

/- main_constructoutpath: succeeds only if the character at the scan's final
   position is the terminator and the remaining budget (the countdown, or
   the '.' offset when one was recorded) leaves room for ". " plus the
   terminator; copies the stem and appends ". ". -/
def main_constructoutpath (inpath : List Char) : Option (List Char) :=
  let r := outpathScan inpath 65535 65535
  if (r.2.2.headD '\x00') = '\x00' then
    let length := if r.2.1 ≠ 65535 then r.2.1 else r.1
    if 3 ≤ length then some (inpath.take (65535 - length) ++ ['.', ' '])
    else none
  else none

/- Overwriting the placeholder blank (the last character) of the constructed
   output path with the 'c' or 'h' extension letter
   (outpath[offset] = ... at lines 664 and 868). -/
def setExt (outpath : List Char) (c : Char) : List Char := outpath.dropLast ++ [c]

/- Specification-side filename extraction, from the spec's words: the suffix
   of the path starting just after the last directory separator, or the
   whole path when none is present. -/
def afterLastSep : List Char → List Char
  | [] => []
  | c :: rest => if '/' ∈ rest then afterLastSep rest else if c = '/' then rest else c :: rest

/- ---------- the whole of main_runbin2c (src/bin2c/main.c lines 619-1014) ----------
   Faithful to the C control flow, including two slips it contains:
   the result of main_runbin2c_outputsymbol (a bool) is tested with
   "error >= 0", which never fails (lines 711-715 and 907-911, modelled by
   cint/the decide on 0 ≤ cint _), and the streaming section re-assigns
   success from the buffer allocation ("success = buffer != NULL",
   line 759, modelled by starting encodeStream from success := true). -/

def cint (b : Bool) : Int := if b then 1 else 0

/- main_runbin2c_outputsymbol (lines 535-577): writes prefix (if any),
   symbol, suffix (if any); returns the folded write result. -/
def outputsymbolW (orc : Nat → Bool) (pre : Option (List Char)) (sym : List Char)
    (suf : Option (List Char)) (w : World) : World × Bool :=
  let r1 := match pre with
    | some p =>
      let e := emit orc (FOp.writeF p) w
      (e.1, e.2)
    | none => (w, true)
  let e2 := emit orc (FOp.writeF sym) r1.1
  let r2 := (e2.1, r1.2 && e2.2)
  match suf with
  | some q =>
    let e := emit orc (FOp.writeF q) r2.1
    (e.1, r2.2 && e.2)
  | none => r2

def main_runbin2c (orc : Nat → Bool) (M : Nat) (sym : List Char)
    (pre suf glob : Option (List Char)) (outpath : List Char)
    (chunks : List (List Nat)) (readErr : Bool) : Bool × World :=
  -- offset = strlen(outpath); success = offset >= 1; offset -= 1
  let s0 : Bool := decide (1 ≤ outpath.length)
  -- definition-file block: open outpath with its blank replaced by 'c'/'h'
  let w0 : World := { attempts := 0, log := [] }
  let op1 :=
    if s0 = true then
      let e := emit orc (FOp.openF (setExt outpath (if glob.isSome then 'c' else 'h'))) w0
      (e.1, e.2, e.2)
    else (w0, false, false)
  let w1 := op1.1
  let s1 := op1.2.1
  let opened1 := op1.2.2
  -- "#include \"<sym>.h\"\n\n" or "static ", then "unsigned char const "
  let p2 :=
    if s1 = true then
      match glob with
      | some _ =>
        let e1 := emit orc (FOp.writeF (("#include \"".data) ++ sym ++ (".h\"\n\n".data))) w1
        let e2 := emit orc (FOp.writeF ("unsigned char const ".data)) e1.1
        (e2.1, s1 && e1.2 && e2.2)
      | none =>
        let e1 := emit orc (FOp.writeF ("static ".data)) w1
        let e2 := emit orc (FOp.writeF ("unsigned char const ".data)) e1.1
        (e2.1, s1 && e1.2 && e2.2)
    else (w1, s1)
  let w2 := p2.1
  let s2 := p2.2
  -- the symbol (its bool result tested with ">= 0", a no-op) and "[] = { "
  let p3 :=
    if s2 = true then
      let e1 := outputsymbolW orc pre sym suf w2
      let sA := s2 && decide (0 ≤ cint e1.2)
      let e2 := emit orc (FOp.writeF ("[] = \x7b ".data)) e1.1
      (e2.1, sA && e2.2)
    else (w2, s2)
  let w3 := p3.1
  -- streaming section; success is re-assigned from the buffer allocation
  let stR := encodeStream orc M chunks readErr
    { success := true, first := true, length := 0, w := w3 }
  let w4 := stR.w
  let s4 := stR.success
  -- " };\n"
  let p5 :=
    if s4 = true then
      let e := emit orc (FOp.writeF (" \x7d;\n".data)) w4
      (e.1, e.2)
    else (w4, s4)
  -- fflush and fclose of the definition file
  let p6 :=
    if opened1 = true then
      let e1 := emit orc FOp.flushF p5.1
      let e2 := emit orc FOp.closeF e1.1
      (e2.1, p5.2 && e1.2 && e2.2)
    else p5
  let w6 := p6.1
  let s6 := p6.2
  -- header block, only in the Global shape
  match glob with
  | none => (s6, w6)
  | some gsuf =>
    let op7 :=
      if s6 = true then
        let e := emit orc (FOp.openF (setExt outpath 'h')) w6
        (e.1, e.2, e.2)
      else (w6, s6, false)
    let w7 := op7.1
    let s7 := op7.2.1
    let opened2 := op7.2.2
    -- include guard from macroConstruct(NULL, symbol, NULL)
    let p8 :=
      if s7 = true then
        match macroConstruct none sym none with
        | some mac =>
          let e := emit orc (FOp.writeF (("#if !defined ( __".data) ++ mac ++ ("_H__ )\n\n#define __".data) ++ mac ++ ("_H__\n\nextern unsigned char const ".data))) w7
          (e.1, e.2)
        | none => (w7, false)
      else (w7, s7)
    let w8 := p8.1
    let s8 := p8.2
    -- the symbol again (">= 0" no-op again) and "[];\n\n#define "
    let p9 :=
      if s8 = true then
        let e1 := outputsymbolW orc pre sym suf w8
        let sA := s8 && decide (0 ≤ cint e1.2)
        let e2 := emit orc (FOp.writeF ("[];\n\n#define ".data)) e1.1
        (e2.1, sA && e2.2)
      else (w8, s8)
    let w9 := p9.1
    let s9 := p9.2
    -- size-macro name from macroConstruct(prefix, symbol, global)
    let p10 :=
      if s9 = true then
        match macroConstruct pre sym (some gsuf) with
        | some mac =>
          let e := emit orc (FOp.writeF mac) w9
          (e.1, e.2)
        | none => (w9, false)
      else (w9, s9)
    let w10 := p10.1
    let s10 := p10.2
    -- the size value and the trailing "\n\n#endif\n"
    let p11 :=
      if s10 = true then
        let e1 := emit orc (FOp.writeF (renderLength stR.length)) w10
        let e2 := emit orc (FOp.writeF ("\n\n#endif\n".data)) e1.1
        (e2.1, s10 && e1.2 && e2.2)
      else (w10, s10)
    -- fflush and fclose of the header file
    let p12 :=
      if opened2 = true then
        let e1 := emit orc FOp.flushF p11.1
        let e2 := emit orc FOp.closeF e1.1
        (e2.1, p11.2 && e1.2 && e2.2)
      else p11
    (p12.2, p12.1)

/- Concrete oracles used in counterexamples and failing inputs. -/

/- Every stdio call succeeds except the very first write. -/
def failFirst : Nat → Bool := fun n => decide (n ≠ 0)

/- Every stdio call succeeds except call number 3 (in the C9 run below,
   the fputs of the symbol into the definition file). -/
def failSym : Nat → Bool := fun n => decide (n ≠ 3)

/- ======================= theorems ======================= -/

lemma emit_okW (op : FOp) (w : World) :
    emit okW op w = ({ attempts := w.attempts + 1, log := w.log ++ [op] }, true) := rfl

lemma encodeChunk_nil (orc : Nat → Bool) (M : Nat) (st : EncState) :
    encodeChunk orc M [] st = st := rfl

lemma encodeChunk_cons (orc : Nat → Bool) (M : Nat) (b : Nat) (rest : List Nat) (st : EncState) :
    encodeChunk orc M (b :: rest) st = encodeChunk orc M rest (encodeByte orc M b st) := rfl

lemma encodeChunk_length (orc : Nat → Bool) (M : Nat) :
    ∀ (bytes : List Nat) (st : EncState),
      (encodeChunk orc M bytes st).length = st.length + bytes.length := by
  intro bytes
  induction bytes with
  | nil => intro st; simp [encodeChunk]
  | cons b rest ih =>
    intro st
    rw [encodeChunk_cons, ih]
    simp [encodeByte]
    omega

lemma encodeChunk_first (orc : Nat → Bool) (M : Nat) :
    ∀ (bytes : List Nat) (st : EncState),
      (encodeChunk orc M bytes st).first = (st.first && bytes.isEmpty) := by
  intro bytes
  induction bytes with
  | nil => intro st; simp [encodeChunk]
  | cons b rest ih =>
    intro st
    rw [encodeChunk_cons, ih]
    simp [encodeByte]

lemma encodeChunk_okW_success (M : Nat) :
    ∀ (bytes : List Nat) (st : EncState),
      ((encodeChunk okW M bytes st).success = true) ↔
        (st.success = true ∧ (bytes.length = 0 ∨ st.length + bytes.length ≤ M)) := by
  intro bytes
  induction bytes with
  | nil => intro st; simp [encodeChunk]
  | cons b rest ih =>
    intro st
    rw [encodeChunk_cons, ih]
    simp only [encodeByte, emit_okW, Bool.and_true, Bool.and_eq_true, decide_eq_true_eq,
      List.length_cons]
    constructor
    · rintro ⟨⟨hs, hlt⟩, h2⟩
      exact ⟨hs, by omega⟩
    · rintro ⟨hs, h⟩
      exact ⟨⟨hs, by omega⟩, by omega⟩

lemma encodeChunk_okW_log (M : Nat) :
    ∀ (bytes : List Nat) (st : EncState),
      (encodeChunk okW M bytes st).w.log = st.w.log ++ renderOps st.first bytes := by
  intro bytes
  induction bytes with
  | nil => intro st; simp [encodeChunk, renderOps, renderLits]
  | cons b rest ih =>
    intro st
    rw [encodeChunk_cons, ih]
    simp [encodeByte, emit_okW, renderOps, renderLits]

lemma encodeChunks_stuck (orc : Nat → Bool) (M : Nat) (chunks : List (List Nat))
    (st : EncState) (h : st.success = false) : encodeChunks orc M chunks st = st := by
  cases chunks with
  | nil => rfl
  | cons c rest => simp [encodeChunks, h]

lemma encodeChunks_okW_success (M : Nat) :
    ∀ (chunks : List (List Nat)) (st : EncState), st.success = true →
      ((encodeChunks okW M chunks st).success = true ↔
        (chunks.flatten.length = 0 ∨ st.length + chunks.flatten.length ≤ M)) := by
  intro chunks
  induction chunks with
  | nil => intro st hs; simp [encodeChunks, hs]
  | cons c rest ih =>
    intro st hs
    have hfl : (c :: rest).flatten = c ++ rest.flatten := rfl
    simp only [encodeChunks, hs, if_pos, hfl, List.length_append]
    by_cases h1 : (encodeChunk okW M c st).success = true
    · rw [ih _ h1]
      have h2 := ((encodeChunk_okW_success M c st).mp h1).2
      have h3 := encodeChunk_length okW M c st
      rw [h3]
      omega
    · have h1' : (encodeChunk okW M c st).success = false := by
        cases hb : (encodeChunk okW M c st).success
        · rfl
        · exact absurd hb h1
      have hd : ¬(c.length = 0 ∨ st.length + c.length ≤ M) := fun d =>
        h1 ((encodeChunk_okW_success M c st).mpr ⟨hs, d⟩)
      rw [encodeChunks_stuck okW M rest _ h1', h1']
      simp only [Bool.false_eq_true, false_iff]
      omega

lemma renderLits_append :
    ∀ (a b : List Nat) (f : Bool),
      renderLits f (a ++ b) = renderLits f a ++ renderLits (f && a.isEmpty) b := by
  intro a
  induction a with
  | nil => intro b f; simp [renderLits]
  | cons x xs ih => intro b f; simp [renderLits, ih]

lemma renderOps_append (f : Bool) (a b : List Nat) :
    renderOps f (a ++ b) = renderOps f a ++ renderOps (f && a.isEmpty) b := by
  simp [renderOps, renderLits_append]

lemma encodeChunks_okW_run (M : Nat) :
    ∀ (chunks : List (List Nat)) (st : EncState), st.success = true →
      (chunks.flatten.length = 0 ∨ st.length + chunks.flatten.length ≤ M) →
      (encodeChunks okW M chunks st).w.log = st.w.log ++ renderOps st.first chunks.flatten
      ∧ (encodeChunks okW M chunks st).length = st.length + chunks.flatten.length
      ∧ (encodeChunks okW M chunks st).success = true := by
  intro chunks
  induction chunks with
  | nil =>
    intro st hs _
    simp [encodeChunks, renderOps, renderLits, hs]
  | cons c rest ih =>
    intro st hs hcond
    have hfl : (c :: rest).flatten = c ++ rest.flatten := rfl
    rw [hfl] at hcond ⊢
    simp only [List.length_append] at hcond
    have hc1 : (encodeChunk okW M c st).success = true :=
      (encodeChunk_okW_success M c st).mpr ⟨hs, by omega⟩
    have hlen := encodeChunk_length okW M c st
    have hlog := encodeChunk_okW_log M c st
    have hfst := encodeChunk_first okW M c st
    have hrest := ih (encodeChunk okW M c st) hc1 (by rw [hlen]; omega)
    simp only [encodeChunks, hs, if_pos]
    refine ⟨?_, ?_, hrest.2.2⟩
    · rw [hrest.1, hlog, hfst, renderOps_append]
      simp [List.append_assoc]
    · rw [hrest.2.1, hlen]
      simp only [List.length_append]
      omega

lemma encState_mask (st : EncState) : { st with success := st.success && !false } = st := by
  cases st with
  | mk s f l w => cases s <;> rfl

lemma encodeStream_noReadErr (orc : Nat → Bool) (M : Nat) (chunks : List (List Nat))
    (st : EncState) : encodeStream orc M chunks false st = encodeChunks orc M chunks st := by
  simp only [encodeStream]
  exact encState_mask _

lemma textOf_renderOps (f : Bool) (bytes : List Nat) :
    textOf (renderOps f bytes) = (renderLits f bytes).flatten := by
  simp only [textOf, renderOps, List.map_map]
  have h : opText ∘ FOp.writeF = id := funext (fun s => rfl)
  rw [h, List.map_id]

lemma renderLits_false (bytes : List Nat) :
    renderLits false bytes = bytes.map (fun b => [',', ' '] ++ litPlain b) := by
  induction bytes with
  | nil => simp [renderLits]
  | cons b r ih => simp [renderLits, litStr, ih]

lemma joinedPayload_cons2 (s t : List Char) (rest : List (List Char)) :
    joinedPayload (s :: t :: rest) = s ++ [',', ' '] ++ joinedPayload (t :: rest) := rfl

lemma joinedPayload_build :
    ∀ (bytes : List Nat) (s : List Char),
      s ++ (bytes.map (fun b => [',', ' '] ++ litPlain b)).flatten
        = joinedPayload (s :: bytes.map litPlain) := by
  intro bytes
  induction bytes with
  | nil => intro s; simp [joinedPayload]
  | cons t r ih =>
    intro s
    simp only [List.map_cons, List.flatten_cons]
    rw [joinedPayload_cons2, ← ih (litPlain t)]
    simp [List.append_assoc]

lemma renderLits_true_flatten (bytes : List Nat) :
    (renderLits true bytes).flatten = joinedPayload (bytes.map litPlain) := by
  cases bytes with
  | nil => simp [renderLits, joinedPayload]
  | cons b r =>
    have h1 : renderLits true (b :: r) = litStr true b :: renderLits false r := rfl
    rw [h1]
    simp only [List.flatten_cons]
    rw [renderLits_false]
    have h2 : litStr true b = litPlain b := by simp [litStr]
    rw [h2, joinedPayload_build]
    simp

lemma countWrites_renderOps : ∀ (bytes : List Nat) (f : Bool),
    countWrites (renderOps f bytes) = bytes.length := by
  intro bytes
  induction bytes with
  | nil => intro f; simp [countWrites, renderOps, renderLits]
  | cons b r ih =>
    intro f
    have h : renderOps f (b :: r) = FOp.writeF (litStr f b) :: renderOps false r := rfl
    rw [h]
    show (List.filter isWrite (FOp.writeF (litStr f b) :: renderOps false r)).length = r.length + 1
    simp only [List.filter_cons, isWrite, if_pos, List.length_cons]
    exact congrArg (· + 1) (ih false)

/-- C1 (amended): for every finite byte sequence delivered from the source,
read without error and within the element-count bound, the stream encoder's
array payload is exactly the per-byte renderings joined in input order by the
two-character separator ", ", with no separator before the first element and
none after the last, where each byte is rendered as 0x followed by its value
in uppercase hexadecimal without zero-padding (one digit below 0x10, two
otherwise) and the suffix u. -/
theorem C1_thm (M : Nat) (chunks : List (List Nat)) (h : chunks.flatten.length ≤ M) :
    textOf (encodeStream okW M chunks false encInit).w.log
      = joinedPayload (chunks.flatten.map litPlain) := by
  rw [encodeStream_noReadErr]
  have hr := encodeChunks_okW_run M chunks encInit rfl (Or.inr (by simp only [encInit]; omega))
  rw [hr.1]
  simp only [encInit, List.nil_append]
  rw [textOf_renderOps, renderLits_true_flatten]

/-- C1 counterexample to the claim as stated: the byte 0x05 is rendered as
"0x5u" (format "0x%hhXu" does not zero-pad), not as the two-digit "0x05u"
that the claimed rendering (litPadded) produces. -/
theorem C1_cex :
    textOf (encodeStream okW 1000 [[5]] false encInit).w.log = ("0x5u".data)
    ∧ joinedPayload (([5] : List Nat).map litPadded) = ("0x05u".data)
    ∧ ("0x5u".data) ≠ ("0x05u".data) := by decide

/-- C1 witness: the amended statement evaluated on the two bytes 0x00, 0xFF. -/
theorem C1_witness :
    textOf (encodeStream okW 1000 [[0, 255]] false encInit).w.log
      = joinedPayload (([[0, 255]] : List (List Nat)).flatten.map litPlain) :=
  C1_thm 1000 [[0, 255]] (by decide)

/-- C2: for every input byte stream read and written without error (and within
the element-count bound), the number of literal elements emitted and the final
element count both equal the exact byte length of the source stream. -/
theorem C2_thm (M : Nat) (chunks : List (List Nat)) (h : chunks.flatten.length ≤ M) :
    (encodeStream okW M chunks false encInit).success = true
    ∧ (encodeStream okW M chunks false encInit).length = chunks.flatten.length
    ∧ countWrites (encodeStream okW M chunks false encInit).w.log = chunks.flatten.length := by
  rw [encodeStream_noReadErr]
  have hr := encodeChunks_okW_run M chunks encInit rfl (Or.inr (by simp only [encInit]; omega))
  refine ⟨hr.2.2, ?_, ?_⟩
  · rw [hr.2.1]
    simp [encInit]
  · rw [hr.1]
    simp only [encInit, List.nil_append]
    exact countWrites_renderOps chunks.flatten true

/-- C2 witness: three bytes delivered in two chunks give count 3 and three
emitted literals. -/
theorem C2_witness :
    (encodeStream okW 100 [[1, 2], [3]] false encInit).success = true
    ∧ (encodeStream okW 100 [[1, 2], [3]] false encInit).length
        = ([[1, 2], [3]] : List (List Nat)).flatten.length
    ∧ countWrites (encodeStream okW 100 [[1, 2], [3]] false encInit).w.log
        = ([[1, 2], [3]] : List (List Nat)).flatten.length :=
  C2_thm 100 [[1, 2], [3]] (by decide)

/-- C4 (amended): a failed write makes the run report failure, and the encoder
stops at the next chunk boundary — once the chunk in which the write failed is
finished, no chunk after it is read or written; bytes remaining in the failing
chunk itself may still be written. -/
theorem C4_thm (orc : Nat → Bool) (M : Nat) (c : List Nat) (rest : List (List Nat))
    (st : EncState) (hs : st.success = true)
    (hf : (encodeChunk orc M c st).success = false) :
    encodeChunks orc M (c :: rest) st = encodeChunk orc M c st
    ∧ (encodeChunks orc M (c :: rest) st).success = false := by
  have h1 : encodeChunks orc M (c :: rest) st
      = encodeChunks orc M rest (encodeChunk orc M c st) := by
    simp [encodeChunks, hs]
  rw [h1, encodeChunks_stuck orc M rest _ hf]
  exact ⟨rfl, hf⟩

/-- C4 counterexample to the claim as stated: the write of the first byte 0x05
fails, yet the literal of the later byte 0x06 (", 0x6u") is still written to
the sink — the inner byte loop does not test the success flag. -/
theorem C4_cex :
    (encodeStream failFirst 100 [[5, 6]] false encInit).success = false
    ∧ (encodeStream failFirst 100 [[5, 6]] false encInit).w.log
        = [FOp.writeF ((", 0x6u".data))] := by decide

/-- C4 witness: with the first write failing inside chunk [5, 6], the trailing
chunk [7] is never processed and the run reports failure. -/
theorem C4_witness :
    encodeChunks failFirst 100 [[5, 6], [7]] encInit = encodeChunk failFirst 100 [5, 6] encInit
    ∧ (encodeChunks failFirst 100 [[5, 6], [7]] encInit).success = false :=
  C4_thm failFirst 100 [5, 6] [[7]] encInit (by rfl) (by decide)

/-- C5: the element count increments by one for every byte processed, and with
all writes succeeding the encode run succeeds exactly when the byte count stays
within the bound M (modelling the positive range of a native signed long):
exceeding it fails the run, staying within it never triggers that failure. -/
theorem C5_thm (M : Nat) (chunks : List (List Nat)) :
    ((encodeStream okW M chunks false encInit).success = true ↔ chunks.flatten.length ≤ M)
    ∧ ∀ (bytes : List Nat) (st : EncState),
        (encodeChunk okW M bytes st).length = st.length + bytes.length := by
  constructor
  · rw [encodeStream_noReadErr, encodeChunks_okW_success M chunks encInit rfl]
    simp only [encInit]
    omega
  · exact fun bytes st => encodeChunk_length okW M bytes st

/-- C5 witness: three bytes against the bound M = 2 make the run fail. -/
theorem C5_witness : (encodeStream okW 2 [[9, 9, 9]] false encInit).success = false := by
  have h := (C5_thm 2 [[9, 9, 9]]).1
  cases hb : (encodeStream okW 2 [[9, 9, 9]] false encInit).success
  · rfl
  · exact absurd (h.mp hb) (by decide)

lemma encodeChunkH_okW_success : ∀ (bytes : List Nat) (st : EncStateH),
    (encodeChunkH okW bytes st).success = st.success := by
  intro bytes
  induction bytes with
  | nil => intro st; rfl
  | cons b r ih =>
    intro st
    have h : encodeChunkH okW (b :: r) st = encodeChunkH okW r (encodeByteH okW b st) := rfl
    rw [h, ih]
    simp [encodeByteH, emit, okW]

lemma encodeChunksH_okW_success : ∀ (chunks : List (List Nat)) (st : EncStateH),
    (encodeChunksH okW chunks st).success = st.success := by
  intro chunks
  induction chunks with
  | nil => intro st; rfl
  | cons c rest ih =>
    intro st
    by_cases hs : st.success = true
    · simp [encodeChunksH, hs, ih, encodeChunkH_okW_success]
    · simp [encodeChunksH, hs]

/-- C10: the bin2h streaming loop keeps no element count, so with all writes
succeeding it succeeds on chunk lists of every total length — while the bin2c
loop, which enforces the signed-long bound M, fails as soon as the byte count
exceeds M. -/
theorem C10_thm :
    (∀ chunks : List (List Nat), (encodeStreamH okW chunks false encInitH).success = true)
    ∧ ∀ M : Nat, (encodeStream okW M [List.replicate (M + 1) 0] false encInit).success = false := by
  constructor
  · intro chunks
    simp [encodeStreamH, encodeChunksH_okW_success, encInitH]
  · intro M
    rw [encodeStream_noReadErr]
    cases hb : (encodeChunks okW M [List.replicate (M + 1) 0] encInit).success
    · rfl
    · exfalso
      have h2 := (encodeChunks_okW_success M [List.replicate (M + 1) 0] encInit rfl).mp hb
      simp only [encInit, List.flatten_cons, List.flatten_nil, List.append_nil,
        List.length_replicate] at h2
      omega

/-- C3: for every final element count, the size macro's rendered text is two
spaces, the count in plain decimal (the narrowing casts never change the
value in their branch), and the long suffix only in the widest branch; and
the width the cascade picks is the smallest of the tiers 8-bit signed,
16-bit signed, 32-bit signed, wider whose range contains the count. -/
theorem C3_thm (len : Nat) :
    renderLength len
      = ' ' :: ' ' :: (Nat.toDigits 10 len ++ (if 2147483647 < len then ['l'] else []))
    ∧ chosenTier len = smallestContainingTier len := by
  by_cases h1 : len ≤ 127
  · constructor
    · have hs : schar len = (len : Int) := by
        unfold schar
        have hm : (len + 128) % 256 = len + 128 := Nat.mod_eq_of_lt (by omega)
        rw [hm]
        push_cast
        omega
      unfold renderLength
      rw [if_pos h1, hs]
      have hd : decRepr ((len : Int)) = Nat.toDigits 10 len := rfl
      rw [hd, if_neg (by omega)]
      simp
    · unfold chosenTier smallestContainingTier tierTable
      rw [if_pos h1]
      simp [List.filter_cons, h1]
  · by_cases h2 : len ≤ 32767
    · constructor
      · have hs : sshort len = (len : Int) := by
          unfold sshort
          have hm : (len + 32768) % 65536 = len + 32768 := Nat.mod_eq_of_lt (by omega)
          rw [hm]
          push_cast
          omega
        unfold renderLength
        rw [if_neg h1, if_pos h2, hs]
        have hd : decRepr ((len : Int)) = Nat.toDigits 10 len := rfl
        rw [hd, if_neg (by omega)]
        simp
      · unfold chosenTier smallestContainingTier tierTable
        rw [if_neg h1, if_pos h2]
        simp [List.filter_cons, h1, h2]
    · by_cases h3 : len ≤ 2147483647
      · constructor
        · have hs : sintc len = (len : Int) := by
            unfold sintc
            have hm : (len + 2147483648) % 4294967296 = len + 2147483648 :=
              Nat.mod_eq_of_lt (by omega)
            rw [hm]
            push_cast
            omega
          unfold renderLength
          rw [if_neg h1, if_neg h2, if_pos h3, hs]
          have hd : decRepr ((len : Int)) = Nat.toDigits 10 len := rfl
          rw [hd, if_neg (by omega)]
          simp
        · unfold chosenTier smallestContainingTier tierTable
          rw [if_neg h1, if_neg h2, if_pos h3]
          simp [List.filter_cons, h1, h2, h3]
      · constructor
        · unfold renderLength
          rw [if_neg h1, if_neg h2, if_neg h3]
          have hd : decRepr (Int.ofNat len) = Nat.toDigits 10 len := rfl
          rw [hd, if_pos (by omega)]
        · unfold chosenTier smallestContainingTier tierTable
          rw [if_neg h1, if_neg h2, if_neg h3]
          simp [List.filter_cons, h1, h2, h3]

lemma macroUpperize_eq : ∀ (l acc : List Char), macroUpperize l acc = acc ++ l.map Char.toUpper := by
  intro l
  induction l with
  | nil => intro acc; simp [macroUpperize]
  | cons c r ih => intro acc; simp [macroUpperize, ih]

lemma usSub_eq (a b : Nat) (hb : b < a) (ha : a ≤ 65535) : usSub a b = a - b := by
  unfold usSub
  have h1 : b % 65536 = b := Nat.mod_eq_of_lt (by omega)
  have h2 : a + 65536 - b = (a - b) + 65536 := by omega
  rw [h1, h2, Nat.add_mod_right]
  exact Nat.mod_eq_of_lt (by omega)

/-- C6: the macro builder returns the concatenation of the optional prefix,
the core and the optional suffix with every character upper-cased by toupper
(alphabetic characters are capitalized, everything else passes through), and
it fails exactly when the combined length including the terminator exceeds
the 65535-character bound; in particular build("s_", "data", "_len") is
"S_DATA_LEN" and build(none, "data", none) is "DATA". -/
theorem C6_thm (pre : Option (List Char)) (core : List Char) (suf : Option (List Char)) :
    macroConstruct pre core suf
      = (if (pre.getD []).length + core.length + (suf.getD []).length + 1 ≤ 65535
         then some (((pre.getD []) ++ core ++ (suf.getD [])).map Char.toUpper)
         else none)
    ∧ macroConstruct (some ("s_".data)) ("data".data) (some ("_len".data)) = some ("S_DATA_LEN".data)
    ∧ macroConstruct none ("data".data) none = some ("DATA".data) := by
  refine ⟨?_, by decide, by decide⟩
  rcases pre with _ | p <;> rcases suf with _ | q <;>
    simp only [macroConstruct, macStep, Bool.true_and, Option.getD, List.length_nil,
      List.nil_append, List.append_nil, Nat.zero_add, Nat.add_zero]
  · by_cases hc : core.length < 65535
    · rw [usSub_eq 65535 core.length hc (by omega)]
      by_cases hd : 1 ≤ 65535 - core.length
      · rw [if_pos (by simp [hc, hd]), if_pos (by omega), macroUpperize_eq]
        simp
      · rw [if_neg (by simp [hc, hd]), if_neg (by omega)]
    · rw [if_neg (by simp [hc]), if_neg (by omega)]
  · by_cases hc : core.length < 65535
    · rw [usSub_eq 65535 core.length hc (by omega)]
      by_cases hq : q.length < 65535 - core.length
      · rw [usSub_eq _ q.length hq (by omega)]
        by_cases hd : 1 ≤ 65535 - core.length - q.length
        · rw [if_pos (by simp [hc, hq, hd]), if_pos (by omega)]
          simp [macroUpperize_eq, List.map_append]
        · rw [if_neg (by simp [hc, hq, hd]), if_neg (by omega)]
      · rw [if_neg (by simp [hc, hq]), if_neg (by omega)]
    · rw [if_neg (by simp [hc]), if_neg (by omega)]
  · by_cases hp : p.length < 65535
    · rw [usSub_eq 65535 p.length hp (by omega)]
      by_cases hc : core.length < 65535 - p.length
      · rw [usSub_eq _ core.length hc (by omega)]
        by_cases hd : 1 ≤ 65535 - p.length - core.length
        · rw [if_pos (by simp [hp, hc, hd]), if_pos (by omega)]
          simp [macroUpperize_eq, List.map_append]
        · rw [if_neg (by simp [hp, hc, hd]), if_neg (by omega)]
      · rw [if_neg (by simp [hp, hc]), if_neg (by omega)]
    · rw [if_neg (by simp [hp]), if_neg (by omega)]
  · by_cases hp : p.length < 65535
    · rw [usSub_eq 65535 p.length hp (by omega)]
      by_cases hc : core.length < 65535 - p.length
      · rw [usSub_eq _ core.length hc (by omega)]
        by_cases hq : q.length < 65535 - p.length - core.length
        · rw [usSub_eq _ q.length hq (by omega)]
          by_cases hd : 1 ≤ 65535 - p.length - core.length - q.length
          · rw [if_pos (by simp [hp, hc, hq, hd]), if_pos (by omega)]
            simp [macroUpperize_eq, List.map_append]
          · rw [if_neg (by simp [hp, hc, hq, hd]), if_neg (by omega)]
        · rw [if_neg (by simp [hp, hc, hq]), if_neg (by omega)]
      · rw [if_neg (by simp [hp, hc]), if_neg (by omega)]
    · rw [if_neg (by simp [hp]), if_neg (by omega)]

lemma aLS_cons_mem (c : Char) (rest : List Char) (h : '/' ∈ rest) :
    afterLastSep (c :: rest) = afterLastSep rest := by simp [afterLastSep, h]

lemma aLS_cons_slash (rest : List Char) (h : '/' ∉ rest) :
    afterLastSep ('/' :: rest) = rest := by simp [afterLastSep, h]

lemma aLS_cons_other (c : Char) (rest : List Char) (h : '/' ∉ rest) (hc : ¬(c = '/')) :
    afterLastSep (c :: rest) = c :: rest := by simp [afterLastSep, h, hc]

lemma aLS_length_le : ∀ l : List Char, (afterLastSep l).length ≤ l.length := by
  intro l
  induction l with
  | nil => simp [afterLastSep]
  | cons c rest ih =>
    by_cases h : '/' ∈ rest
    · rw [aLS_cons_mem c rest h]
      simp only [List.length_cons]
      omega
    · by_cases hc : c = '/'
      · subst hc
        rw [aLS_cons_slash rest h]
        simp
      · rw [aLS_cons_other c rest h hc]

lemma aLS_no_sep (l : List Char) (h : '/' ∉ l) : afterLastSep l = l := by
  cases l with
  | nil => rfl
  | cons c rest =>
    have h1 : '/' ∉ rest := fun hr => h (List.mem_cons.mpr (Or.inr hr))
    have h2 : ¬(c = '/') := fun hc => h (List.mem_cons.mpr (Or.inl hc.symm))
    exact aLS_cons_other c rest h1 h2

lemma aLS_suffix : ∀ l : List Char, ∃ t, t ++ afterLastSep l = l := by
  intro l
  induction l with
  | nil => exact ⟨[], rfl⟩
  | cons c rest ih =>
    by_cases h : '/' ∈ rest
    · obtain ⟨t, ht⟩ := ih
      exact ⟨c :: t, by rw [aLS_cons_mem c rest h, List.cons_append, ht]⟩
    · by_cases hc : c = '/'
      · subst hc
        exact ⟨['/'], by rw [aLS_cons_slash rest h]; rfl⟩
      · exact ⟨[], by rw [aLS_cons_other c rest h hc]; rfl⟩

lemma drop_len_append : ∀ (t s : List Char), (t ++ s).drop t.length = s := by
  intro t s
  induction t with
  | nil => rfl
  | cons a t ih => simp [ih]

lemma findnameScan_eq :
    ∀ (l : List Char) (n d : Nat), l.length ≤ n → n ≤ 65535 → '\x00' ∉ l →
      findnameScan l n d
        = if '/' ∈ l then (65535 - n) + (l.length - (afterLastSep l).length) else d := by
  intro l
  induction l with
  | nil =>
    intro n d _ _ _
    cases n <;> simp [findnameScan]
  | cons c rest ih =>
    intro n d hlen hn hnull
    have h1 : ¬('\x00' = c) := fun h => hnull (List.mem_cons.mpr (Or.inl h))
    have h2 : '\x00' ∉ rest := fun h => hnull (List.mem_cons.mpr (Or.inr h))
    have hc0 : ¬(c = '\x00') := fun h => h1 h.symm
    cases n with
    | zero => simp at hlen
    | succ m =>
      have hrl : rest.length ≤ m := by
        simp only [List.length_cons] at hlen
        omega
      have hm : m ≤ 65534 := by omega
      have hscan : findnameScan (c :: rest) (m + 1) d
          = if c = '/' then findnameScan rest m (65535 - m)
            else if c = '\x00' then d else findnameScan rest m d := rfl
      rw [hscan]
      by_cases hcs : c = '/'
      · rw [if_pos hcs, ih m (65535 - m) hrl (by omega) h2]
        subst hcs
        by_cases hr : '/' ∈ rest
        · rw [if_pos hr, if_pos (List.mem_cons.mpr (Or.inl rfl)), aLS_cons_mem _ _ hr]
          have hle := aLS_length_le rest
          simp only [List.length_cons]
          omega
        · rw [if_neg hr, if_pos (List.mem_cons.mpr (Or.inl rfl)), aLS_cons_slash rest hr]
          simp only [List.length_cons]
          omega
      · rw [if_neg hcs, if_neg hc0, ih m d hrl (by omega) h2]
        have hmem : ('/' ∈ c :: rest) ↔ ('/' ∈ rest) := by
          rw [List.mem_cons]
          constructor
          · rintro (h | h)
            · exact absurd h.symm hcs
            · exact h
          · exact Or.inr
        by_cases hr : '/' ∈ rest
        · rw [if_pos hr, if_pos (hmem.mpr hr), aLS_cons_mem _ _ hr]
          have hle := aLS_length_le rest
          simp only [List.length_cons]
          omega
        · rw [if_neg hr, if_neg (fun h => hr (hmem.mp h))]

/-- C7: for every terminated path within the length bound, main_findname
returns the suffix starting just after the last directory separator (the
whole path when no separator exists); and output-path derivation replaces
the extension after the last separator: from "a/b/c.bin" the filename stem
is "c" and the output path (after the caller fills in the extension letter)
is "a/b/c.h"; from "c" (no extension) it is "c.h". -/
theorem C7_thm :
    (∀ path : List Char, path.length ≤ 65534 → '\x00' ∉ path →
        main_findname path = afterLastSep path)
    ∧ main_shortenname ("a/b/c.bin".data) = ("c".data)
    ∧ main_constructoutpath ("a/b/c.bin".data) = some ("a/b/c. ".data)
    ∧ setExt ("a/b/c. ".data) 'h' = ("a/b/c.h".data)
    ∧ main_constructoutpath ("c".data) = some ("c. ".data)
    ∧ setExt ("c. ".data) 'h' = ("c.h".data) := by
  refine ⟨?_, by decide, by decide, by decide, by decide, by decide⟩
  intro path hlen hnull
  unfold main_findname
  rw [findnameScan_eq path 65535 0 (by omega) (by omega) hnull]
  by_cases h : '/' ∈ path
  · rw [if_pos h]
    obtain ⟨t, ht⟩ := aLS_suffix path
    have hteq : (65535 - 65535) + (path.length - (afterLastSep path).length) = t.length := by
      have hl := congrArg List.length ht
      simp only [List.length_append] at hl
      omega
    rw [hteq]
    conv_lhs => rw [← ht]
    exact drop_len_append t (afterLastSep path)
  · rw [if_neg h]
    simp [aLS_no_sep path h]

/-- C7 witness: the general filename-extraction statement evaluated on the
path "a/b/c.bin", whose suffix after the last separator is "c.bin". -/
theorem C7_witness : main_findname ("a/b/c.bin".data) = afterLastSep ("a/b/c.bin".data) :=
  C7_thm.1 ("a/b/c.bin".data) (by decide) (by decide)

lemma take_len_append : ∀ (t s : List Char), (t ++ s).take t.length = t := by
  intro t s
  induction t with
  | nil => rfl
  | cons a t ih => simp [ih]

lemma outpathScan_nil (m off : Nat) : outpathScan [] m off = (m, off, []) := by
  cases m <;> rfl

lemma outpathScan_skip :
    ∀ (k : Nat) (rest : List Char) (len off : Nat), k ≤ len →
      outpathScan (List.replicate k 'a' ++ rest) len off = outpathScan rest (len - k) off := by
  intro k
  induction k with
  | zero => intro rest len off _; simp
  | succ k ih =>
    intro rest len off hk
    cases len with
    | zero => omega
    | succ m =>
      have hrep : List.replicate (k + 1) 'a' ++ rest = 'a' :: (List.replicate k 'a' ++ rest) := rfl
      rw [hrep]
      have hstep : outpathScan ('a' :: (List.replicate k 'a' ++ rest)) (m + 1) off
          = outpathScan (List.replicate k 'a' ++ rest) m off := rfl
      rw [hstep, ih rest m off (by omega)]
      have hsub : m - k = m + 1 - (k + 1) := by omega
      rw [hsub]

lemma outpathScan_over :
    ∀ (len k off : Nat), len < k →
      outpathScan (List.replicate k 'a') len off = (0, off, List.replicate (k - len) 'a') := by
  intro len
  induction len with
  | zero =>
    intro k off hk
    cases k with
    | zero => omega
    | succ k => rfl
  | succ m ih =>
    intro k off hk
    cases k with
    | zero => omega
    | succ k =>
      have hrep : List.replicate (k + 1) 'a' = 'a' :: List.replicate k 'a' := rfl
      rw [hrep]
      have hstep : outpathScan ('a' :: List.replicate k 'a') (m + 1) off
          = outpathScan (List.replicate k 'a') m off := rfl
      rw [hstep, ih k off (by omega)]
      have hsub : k - m = k + 1 - (m + 1) := by omega
      rw [hsub]

lemma constructoutpath_replicate (n : Nat) :
    main_constructoutpath (List.replicate n 'a')
      = if n ≤ 65532 then some (List.replicate n 'a' ++ ['.', ' ']) else none := by
  by_cases hn : n ≤ 65535
  · have h1 : outpathScan (List.replicate n 'a') 65535 65535
        = outpathScan [] (65535 - n) 65535 := by
      have h := outpathScan_skip n [] 65535 65535 hn
      rwa [List.append_nil] at h
    unfold main_constructoutpath
    rw [h1, outpathScan_nil]
    dsimp only
    have hc1 : ([] : List Char).headD '\x00' = '\x00' := rfl
    rw [if_pos hc1]
    have hne : ¬((65535 : Nat) ≠ 65535) := by omega
    rw [if_neg hne]
    by_cases hle : 3 ≤ 65535 - n
    · have hc2 : n ≤ 65532 := by omega
      rw [if_pos hle, if_pos hc2]
      have htake : 65535 - (65535 - n) = n := by omega
      rw [htake]
      have ht2 : (List.replicate n 'a').take n = List.replicate n 'a' := by
        have h := List.take_length (List.replicate n 'a')
        rwa [List.length_replicate] at h
      rw [ht2]
    · have hc2 : ¬(n ≤ 65532) := by omega
      rw [if_neg hle, if_neg hc2]
  · have h1 := outpathScan_over 65535 n 65535 (by omega)
    unfold main_constructoutpath
    rw [h1]
    dsimp only
    have hhd : (List.replicate (n - 65535) 'a').headD '\x00' = 'a' := by
      have hm : n - 65535 = (n - 65536) + 1 := by omega
      rw [hm]
      rfl
    have hc1 : ¬((List.replicate (n - 65535) 'a').headD '\x00' = '\x00') := by
      rw [hhd]
      decide
    have hc2 : ¬(n ≤ 65532) := by omega
    rw [if_neg hc1, if_neg hc2]

lemma constructoutpath_dotbin (k : Nat) (h1 : 1 ≤ k) (h2 : k ≤ 65531) :
    main_constructoutpath (List.replicate k 'a' ++ (".bin".data))
      = some (List.replicate k 'a' ++ ['.', ' ']) := by
  have hs := outpathScan_skip k ((".bin".data)) 65535 65535 (by omega)
  have hscan : outpathScan ((".bin".data)) (65535 - k) 65535 = (65535 - k - 4, 65535 - k, []) := by
    obtain ⟨x, hx⟩ : ∃ x, 65535 - k = x + 4 := ⟨65535 - k - 4, by omega⟩
    rw [hx]
    have h4 : x + 4 - 4 = x := by omega
    rw [h4]
    calc outpathScan ((".bin".data)) (x + 4) 65535 = outpathScan [] x (x + 4) := rfl
      _ = (x, x + 4, []) := outpathScan_nil x (x + 4)
  unfold main_constructoutpath
  rw [hs, hscan]
  dsimp only
  have hc1 : ([] : List Char).headD '\x00' = '\x00' := rfl
  have hc2 : 65535 - k ≠ 65535 := by omega
  have hc3 : (3 : Nat) ≤ 65535 - k := by omega
  rw [if_pos hc1, if_pos hc2, if_pos hc3]
  have htake : 65535 - (65535 - k) = k := by omega
  rw [htake]
  have ht2 : (List.replicate k 'a' ++ (".bin".data)).take k = List.replicate k 'a' := by
    have h := take_len_append (List.replicate k 'a') ((".bin".data))
    rwa [List.length_replicate] at h
  rw [ht2]

/-- C8 (amended): output-path construction succeeds only when the copied stem
plus the two-character ". " marker and the terminator fit the 65535 bound:
for dotless, separator-free paths this means success exactly up to 65532
characters, so a dotless path whose length including the terminator equals
the bound fails cleanly with the empty result (as does one a character
longer), while a path with an extension dot and a stem of at most 65532
characters succeeds even at the bound; the bounded scan is total and never
reads outside the list. -/
theorem C8_thm :
    (∀ n : Nat, main_constructoutpath (List.replicate n 'a')
        = if n ≤ 65532 then some (List.replicate n 'a' ++ ['.', ' ']) else none)
    ∧ ∀ k : Nat, 1 ≤ k → k ≤ 65531 →
        main_constructoutpath (List.replicate k 'a' ++ (".bin".data))
          = some (List.replicate k 'a' ++ ['.', ' ']) :=
  ⟨constructoutpath_replicate, fun k h1 h2 => constructoutpath_dotbin k h1 h2⟩

/-- C8 counterexample to the claim as stated: a dotless path of 65534
characters — whose length including the terminator is exactly the
65535-character bound — makes construction fail, not succeed. -/
theorem C8_cex : main_constructoutpath (List.replicate 65534 'a') = none := by
  have h := constructoutpath_replicate 65534
  rwa [if_neg (by omega)] at h

/-- C8 witness: a path with stem 65530 and extension ".bin" — length
including the terminator exactly 65535 — succeeds. -/
theorem C8_witness :
    main_constructoutpath (List.replicate 65530 'a' ++ (".bin".data))
      = some (List.replicate 65530 'a' ++ ['.', ' ']) :=
  C8_thm.2 65530 (by decide) (by decide)

/-- C9 (code-bug exhibit): in a Global-shape run where the fputs of the
symbol "data" into the definition (.c) file fails (stdio call number 3) and
every other call succeeds, the run nevertheless opens and writes the header
file and even reports overall success, because the bool returned by
main_runbin2c_outputsymbol is tested with "error >= 0", which is always
true; the first eight logged calls (the whole .c phase) show the symbol
write missing from the definition file. -/
theorem C9_thm :
    (main_runbin2c failSym 1000 ("data".data) none none (some ("_len".data))
        ("data. ".data) [[1]] false).1 = true
    ∧ FOp.openF ("data.h".data)
        ∈ (main_runbin2c failSym 1000 ("data".data) none none (some ("_len".data))
            ("data. ".data) [[1]] false).2.log
    ∧ FOp.writeF ("data".data)
        ∉ ((main_runbin2c failSym 1000 ("data".data) none none (some ("_len".data))
            ("data. ".data) [[1]] false).2.log.take 8) := by decide

end Bin2c
